import Mathlib

/-!
Shallow embedding of `src/mash.h` (MASH/mmbr numerical core).

Conventions of the embedding:
* `arma::mat` of shape m×n over `double` becomes `Matrix (Fin m) (Fin n) ℝ`
  (idealized real arithmetic); `arma::vec` becomes `Fin n → ℝ`.
* An empty optional armadillo matrix (`is_empty()` dispatch) becomes `Option`.
* `arma::chol` (LAPACK dpotrf) is modelled by the exact-arithmetic Cholesky
  recursion `cholLower`, which fails (returns `none`) exactly when some pivot
  is not strictly positive — the idealization of "covariance numerically
  singular".
* Densities can be `+∞`/`-∞`/finite, so the density functions return `EReal`.
* `arma::erfc` is the mathematical complementary error function, modelled by
  its integral definition.
* Loop accumulations into output buffers become `Finset.sum` over the loop
  index (addition of reals/matrices is commutative, so the fold equals the sum).
-/

namespace Mash

open scoped BigOperators

noncomputable section

open Classical

/-- Model of the constant `LOG_2PI = std::log(2.0 * M_PI)`. -/
def LOG_2PI : ℝ := Real.log (2 * Real.pi)

/-- Model of `arma::erfc`: the complementary error function
`erfc x = (2/√π) ∫_x^∞ exp (-t²) dt`. -/
def erfc (x : ℝ) : ℝ :=
  (2 / Real.sqrt Real.pi) * ∫ t in Set.Ioi x, Real.exp (-t ^ 2)

/-- Model of `pnorm(x, m, s, logd, lower_tail)` from `mash.h`:
`res = 0.5 * erfc((x - m) / s * M_SQRT1_2)` with the four tail/log cases. -/
def pnorm (x m s : ℝ) (logd lower_tail : Bool) : ℝ :=
  let res := 0.5 * erfc ((x - m) / s * (Real.sqrt 2)⁻¹)
  if !lower_tail && !logd then 1 - res
  else if lower_tail && !logd then res
  else if !lower_tail && logd then Real.log (1 - res)
  else Real.log res

/-- Exact-arithmetic Cholesky factorization, lower-triangular form: returns
`some L` with `A = L * Lᵀ` when every pivot of the elimination is strictly
positive, `none` otherwise.  This models success/failure of `arma::chol`
(LAPACK dpotrf): in exact arithmetic dpotrf fails iff some pivot is `≤ 0`. -/
def cholLower : (n : ℕ) → Matrix (Fin n) (Fin n) ℝ → Option (Matrix (Fin n) (Fin n) ℝ)
  | 0, _ => some 0
  | n + 1, A =>
    if 0 < A 0 0 then
      match cholLower n (Matrix.of fun i j =>
          A i.succ j.succ - (A i.succ 0 / Real.sqrt (A 0 0)) * (A j.succ 0 / Real.sqrt (A 0 0))) with
      | none => none
      | some L => some (Matrix.of fun i j =>
          Fin.cases (Fin.cases (Real.sqrt (A 0 0)) (fun _ => 0) j)
            (fun i2 => Fin.cases (A i2.succ 0 / Real.sqrt (A 0 0)) (fun j2 => L i2 j2) j) i)
    else none

/-- Model of `rooti = arma::trans(arma::inv(arma::trimatu(arma::chol(sigma))))`:
the upper Cholesky factor is `Lᵀ`, so `rooti = ((Lᵀ)⁻¹)ᵀ`; `none` when the
factorization fails. -/
def rooti_of {n : ℕ} (sigma : Matrix (Fin n) (Fin n) ℝ) :
    Option (Matrix (Fin n) (Fin n) ℝ) :=
  (cholLower n sigma).map fun L => ((L.transpose)⁻¹).transpose

/-- Success-branch log-density of `dmvnorm`/`dmvnorm_mat`:
`constants - 0.5 * sum(z % z) + rootisum` with `z = rooti * (x - mean)`. -/
def whiten_logpdf {n : ℕ} (rooti : Matrix (Fin n) (Fin n) ℝ) (x mean : Fin n → ℝ) : ℝ :=
  let rootisum := ∑ i, Real.log (rooti i i)
  let constants := -((n : ℝ) / 2) * LOG_2PI
  let z := rooti.mulVec (fun r => x r - mean r)
  constants - 0.5 * (∑ i, z i * z i) + rootisum

/-- Model of `dmvnorm(x, mean, sigma, logd, inversed)` from `mash.h`.  When
`inversed` the argument `sigma` is used directly as the whitening matrix
`rooti`; otherwise `rooti` is computed by Cholesky, and if that fails the
point-mass fallback returns `+∞` when the L1 distance of `x` to `mean` is
below `1e-6`, and `-∞` (log) / `0` (density) otherwise. -/
def dmvnorm {n : ℕ} (x mean : Fin n → ℝ) (sigma : Matrix (Fin n) (Fin n) ℝ)
    (logd inversed : Bool) : EReal :=
  match (if inversed then some sigma else rooti_of sigma) with
  | some rooti =>
      if logd then ((whiten_logpdf rooti x mean : ℝ) : EReal)
      else ((Real.exp (whiten_logpdf rooti x mean) : ℝ) : EReal)
  | none =>
      if (∑ i, |x i - mean i|) < 1e-6 then (⊤ : EReal)
      else if logd then (⊥ : EReal) else (0 : EReal)

/-- Model of `dmvnorm_mat(x, mean, sigma, logd, inversed)` from `mash.h`:
the batched version evaluating each column of `x`; on Cholesky failure the
output is filled with `-∞` (log) / `0` and overwritten with `+∞` at columns
within `1e-6` L1 distance of `mean`. -/
def dmvnorm_mat {n m : ℕ} (x : Matrix (Fin n) (Fin m) ℝ) (mean : Fin n → ℝ)
    (sigma : Matrix (Fin n) (Fin n) ℝ) (logd inversed : Bool) : Fin m → EReal :=
  match (if inversed then some sigma else rooti_of sigma) with
  | some rooti => fun i =>
      if logd then ((whiten_logpdf rooti (fun r => x r i) mean : ℝ) : EReal)
      else ((Real.exp (whiten_logpdf rooti (fun r => x r i) mean) : ℝ) : EReal)
  | none => fun i =>
      if (∑ r, |x r i - mean r|) < 1e-6 then (⊤ : EReal)
      else if logd then (⊥ : EReal) else (0 : EReal)

/-- Model of the three-argument `get_cov(s, V, L)`:
`(V.each_col % s).each_row % s.t()` is the broadcast form of
`diag(s) * V * diag(s)`; when `L` is non-empty the result is `L * svs * Lᵀ`. -/
def getCov {n : ℕ} (s : Fin n → ℝ) (V : Matrix (Fin n) (Fin n) ℝ)
    (L : Option (Matrix (Fin n) (Fin n) ℝ)) : Matrix (Fin n) (Fin n) ℝ :=
  match L with
  | none => Matrix.of fun i j => V i j * s i * s j
  | some l => l * (Matrix.of fun i j => V i j * s i * s j) * l.transpose

/-- Model of the in-place diagonal increment `S.diag() += 1.0`. -/
def addDiagOne {n : ℕ} (M : Matrix (Fin n) (Fin n) ℝ) : Matrix (Fin n) (Fin n) ℝ :=
  Matrix.of fun i j => if i = j then M i j + 1 else M i j

/-- Model of `get_posterior_cov(Vinv, U) = U * S.i()` where `S = Vinv * U`
with the diagonal incremented by one. -/
def get_posterior_cov {n : ℕ} (Vinv U : Matrix (Fin n) (Fin n) ℝ) :
    Matrix (Fin n) (Fin n) ℝ :=
  U * (addDiagOne (Vinv * U))⁻¹

/-- Model of `get_posterior_mean(bhat, Vinv, U1) = U1 * Vinv * bhat`. -/
def get_posterior_mean {n : ℕ} (bhat : Fin n → ℝ) (Vinv U1 : Matrix (Fin n) (Fin n) ℝ) :
    Fin n → ℝ :=
  (U1 * Vinv).mulVec bhat

/-- Model of the raw-covariance overload of `calc_lik`: a `J × P` matrix of
(log-)likelihoods.  The `common_cov` branch builds one `sigma` from column 0
of `s_mat` and evaluates `dmvnorm_mat` batched over effects; the general
branch evaluates `dmvnorm` per effect with a per-effect `sigma`. -/
def calc_lik {R J P : ℕ} [NeZero J] (b_mat s_mat : Matrix (Fin R) (Fin J) ℝ)
    (v_mat : Matrix (Fin R) (Fin R) ℝ) (l_mat : Option (Matrix (Fin R) (Fin R) ℝ))
    (U_cube : Fin P → Matrix (Fin R) (Fin R) ℝ) (logd common_cov : Bool) :
    Fin J → Fin P → EReal :=
  if common_cov then
    fun j p => dmvnorm_mat b_mat (fun _ => 0) (getCov (fun r => s_mat r 0) v_mat l_mat + U_cube p) logd false j
  else
    fun j p => dmvnorm (fun r => b_mat r j) (fun _ => 0) (getCov (fun r => s_mat r j) v_mat l_mat + U_cube p) logd false

/-- Model of the precomputed-whitening overload of `calc_lik`: the rooti cube
holds one slice per component (`common_cov`) or one slice per
(effect, component) pair in row-major effect order (flattened index
`k = j * P + p`, modelled curried). -/
def calc_lik_rooti {R J P : ℕ} (b_mat : Matrix (Fin R) (Fin J) ℝ)
    (rooti_common : Fin P → Matrix (Fin R) (Fin R) ℝ)
    (rooti_perEffect : Fin J → Fin P → Matrix (Fin R) (Fin R) ℝ)
    (logd common_cov : Bool) : Fin J → Fin P → EReal :=
  if common_cov then
    fun j p => dmvnorm_mat b_mat (fun _ => 0) (rooti_common p) logd true j
  else
    fun j p => dmvnorm (fun r => b_mat r j) (fun _ => 0) (rooti_perEffect j p) logd true

/-! Aggregation machinery shared by the posterior engines.  These functions
are parametric in the per-effect, per-component posterior mean `mu1` and
rescaled posterior covariance `U1`, and model the weighted-average loops of
`compute_posterior` / `compute_posterior_comcov`. -/

/-- Model of `sigma = arma::sqrt(U1.diag())` inside the component loop. -/
def sigmaOf {O J P : ℕ} (U1 : Fin J → Fin P → Matrix (Fin O) (Fin O) ℝ)
    (j : Fin J) (p : Fin P) (r : Fin O) : ℝ :=
  Real.sqrt (U1 j p r r)

/-- Model of the per-component negative-probability matrix `neg_mat`:
`pnorm(mu1, 0, sigma)` then overwritten with `0` where `sigma == 0`. -/
def negMatOf {O J P : ℕ} (mu1 : Fin J → Fin P → Fin O → ℝ)
    (U1 : Fin J → Fin P → Matrix (Fin O) (Fin O) ℝ)
    (j : Fin J) (p : Fin P) (r : Fin O) : ℝ :=
  if sigmaOf U1 j p r = 0 then 0
  else pnorm (mu1 j p r) 0 (sigmaOf U1 j p r) false true

/-- Model of the per-component zero-probability matrix `zero_mat`:
`0` everywhere, overwritten with `1` where `sigma == 0`. -/
def zeroMatOf {O J P : ℕ} (U1 : Fin J → Fin P → Matrix (Fin O) (Fin O) ℝ)
    (j : Fin J) (p : Fin P) (r : Fin O) : ℝ :=
  if sigmaOf U1 j p r = 0 then 1 else 0

/-- Model of `post_mean.col(j) = mu1_mat * posterior_weights.col(j)`. -/
def postMeanOf {O J P : ℕ} (mu1 : Fin J → Fin P → Fin O → ℝ)
    (W : Matrix (Fin P) (Fin J) ℝ) (j : Fin J) (r : Fin O) : ℝ :=
  ∑ p, mu1 j p r * W p j

/-- Model of `post_var = diag_mu2_mat * weights` followed by the final
`post_var -= arma::pow(post_mean, 2.0)`, where
`diag_mu2_mat.col(p) = pow(mu1, 2) + U1.diag()`. -/
def postVarOf {O J P : ℕ} (mu1 : Fin J → Fin P → Fin O → ℝ)
    (U1 : Fin J → Fin P → Matrix (Fin O) (Fin O) ℝ)
    (W : Matrix (Fin P) (Fin J) ℝ) (j : Fin J) (r : Fin O) : ℝ :=
  (∑ p, ((mu1 j p r) ^ 2 + U1 j p r r) * W p j) - (postMeanOf mu1 W j r) ^ 2

/-- Model of `neg_prob.col(j) = neg_mat * posterior_weights.col(j)`. -/
def negProbOf {O J P : ℕ} (mu1 : Fin J → Fin P → Fin O → ℝ)
    (U1 : Fin J → Fin P → Matrix (Fin O) (Fin O) ℝ)
    (W : Matrix (Fin P) (Fin J) ℝ) (j : Fin J) (r : Fin O) : ℝ :=
  ∑ p, negMatOf mu1 U1 j p r * W p j

/-- Model of `zero_prob.col(j) = zero_mat * posterior_weights.col(j)`. -/
def zeroProbOf {O J P : ℕ} (mu1 : Fin J → Fin P → Fin O → ℝ)
    (U1 : Fin J → Fin P → Matrix (Fin O) (Fin O) ℝ)
    (W : Matrix (Fin P) (Fin J) ℝ) (j : Fin J) (r : Fin O) : ℝ :=
  ∑ p, zeroMatOf U1 j p r * W p j

/-- Model of the `post_cov` output of `PosteriorMASH`: the accumulation
`post_cov.slice(j) += w[p,j] * (U1 + mu1 * mu1.t())` runs only when
`report_type == 2 || report_type == 4`, and when `report_type == 4` the outer
product of the marginal mean is subtracted after the component loop. -/
def postCovOf {O J P : ℕ} (mu1 : Fin J → Fin P → Fin O → ℝ)
    (U1 : Fin J → Fin P → Matrix (Fin O) (Fin O) ℝ)
    (W : Matrix (Fin P) (Fin J) ℝ) (report_type : ℤ) (j : Fin J) :
    Matrix (Fin O) (Fin O) ℝ :=
  (if report_type = 2 ∨ report_type = 4 then
    ∑ p, W p j • (U1 j p + Matrix.vecMulVec (mu1 j p) (mu1 j p))
  else 0)
  - (if report_type = 4 then
      Matrix.vecMulVec (postMeanOf mu1 W j) (postMeanOf mu1 W j)
    else 0)

/-- Inputs of a `PosteriorMASH` instance, with the `SE` object resolved:
`sAlpha` is `s_obj.get()` (defaults to ones when absent in the constructor)
and `sOrig` is `s_obj.get_original()` (the `s_orig` override when supplied,
else the SE matrix itself).  `l?` is the optional `l_mat`, `Vinv?`/`U0?` the
optionally injected caches (`set_vinv`/`set_U0`, the latter stored with
flattened slice index `j * P + p`, modelled curried). -/
structure MashInput (R J P : ℕ) where
  b : Matrix (Fin R) (Fin J) ℝ
  sAlpha : Matrix (Fin R) (Fin J) ℝ
  sOrig : Matrix (Fin R) (Fin J) ℝ
  v : Matrix (Fin R) (Fin R) ℝ
  lOpt : Option (Matrix (Fin R) (Fin R) ℝ)
  U : Fin P → Matrix (Fin R) (Fin R) ℝ
  VinvOpt : Option (Fin J → Matrix (Fin R) (Fin R) ℝ)
  U0Opt : Option (Fin J → Fin P → Matrix (Fin R) (Fin R) ℝ)

/-- Model of `Vinv_j` in `PosteriorMASH::compute_posterior`:
`inv_sympd(get_cov(s_orig.col(j), v_mat, l_mat))` (idealized matrix inverse)
unless a `Vinv` cache was injected. -/
def VinvAt {R J P : ℕ} (I : MashInput R J P) (j : Fin J) : Matrix (Fin R) (Fin R) ℝ :=
  match I.VinvOpt with
  | some c => c j
  | none => (getCov (fun r => I.sOrig r j) I.v I.lOpt)⁻¹

/-- Model of `U0` in the component loop of `PosteriorMASH::compute_posterior`. -/
def U0At {R J P : ℕ} (I : MashInput R J P) (j : Fin J) (p : Fin P) :
    Matrix (Fin R) (Fin R) ℝ :=
  match I.U0Opt with
  | some c => c j p
  | none => get_posterior_cov (VinvAt I j) (I.U p)

/-- Model of `mu1_mat.col(p) = get_posterior_mean(b.col(j), Vinv_j, U0) % s_alpha.col(j)`
(the `a_mat`-empty branch). -/
def mu1Base {R J P : ℕ} (I : MashInput R J P) (j : Fin J) (p : Fin P) : Fin R → ℝ :=
  fun r => get_posterior_mean (fun r2 => I.b r2 j) (VinvAt I j) (U0At I j p) r * I.sAlpha r j

/-- Model of `U1 = (U0.each_col % s_alpha.col(j)).each_row % s_alpha.col(j).t()`
(the `a_mat`-empty branch). -/
def U1Base {R J P : ℕ} (I : MashInput R J P) (j : Fin J) (p : Fin P) :
    Matrix (Fin R) (Fin R) ℝ :=
  Matrix.of fun r r2 => U0At I j p r r2 * I.sAlpha r j * I.sAlpha r2 j

/-- Model of `mu1_mat.col(p)` in the branch where `a_mat` is supplied:
`a_mat * (get_posterior_mean(...) % s_alpha.col(j))`. -/
def mu1WithA {R J P Q : ℕ} (I : MashInput R J P) (A : Matrix (Fin Q) (Fin R) ℝ)
    (j : Fin J) (p : Fin P) : Fin Q → ℝ :=
  A.mulVec (mu1Base I j p)

/-- Model of `U1` in the branch where `a_mat` is supplied:
`a_mat * (scaled U0 * a_mat.t())`. -/
def U1WithA {R J P Q : ℕ} (I : MashInput R J P) (A : Matrix (Fin Q) (Fin R) ℝ)
    (j : Fin J) (p : Fin P) : Matrix (Fin Q) (Fin Q) ℝ :=
  A * (U1Base I j p * A.transpose)

/-- Outputs of `PosteriorMASH::compute_posterior` with `a_mat` empty:
the five output buffers after the call. -/
def mashPostMean {R J P : ℕ} (I : MashInput R J P) (W : Matrix (Fin P) (Fin J) ℝ) :
    Fin J → Fin R → ℝ :=
  fun j => postMeanOf (mu1Base I) W j

/-- Posterior-variance output of `PosteriorMASH::compute_posterior`
(`a_mat` empty). -/
def mashPostVar {R J P : ℕ} (I : MashInput R J P) (W : Matrix (Fin P) (Fin J) ℝ) :
    Fin J → Fin R → ℝ :=
  fun j => postVarOf (mu1Base I) (U1Base I) W j

/-- Negative-probability output of `PosteriorMASH::compute_posterior`
(`a_mat` empty). -/
def mashNegProb {R J P : ℕ} (I : MashInput R J P) (W : Matrix (Fin P) (Fin J) ℝ) :
    Fin J → Fin R → ℝ :=
  fun j => negProbOf (mu1Base I) (U1Base I) W j

/-- Zero-probability output of `PosteriorMASH::compute_posterior`
(`a_mat` empty). -/
def mashZeroProb {R J P : ℕ} (I : MashInput R J P) (W : Matrix (Fin P) (Fin J) ℝ) :
    Fin J → Fin R → ℝ :=
  fun j => zeroProbOf (mu1Base I) (U1Base I) W j

/-- Posterior-covariance output of `PosteriorMASH::compute_posterior`
(`a_mat` empty), gated by `report_type`. -/
def mashPostCov {R J P : ℕ} (I : MashInput R J P) (W : Matrix (Fin P) (Fin J) ℝ)
    (report_type : ℤ) : Fin J → Matrix (Fin R) (Fin R) ℝ :=
  postCovOf (mu1Base I) (U1Base I) W report_type

/-- Posterior-mean output of `PosteriorMASH::compute_posterior` when an
embedding matrix `a_mat` (Q×R) is supplied. -/
def mashPostMeanA {R J P Q : ℕ} (I : MashInput R J P) (A : Matrix (Fin Q) (Fin R) ℝ)
    (W : Matrix (Fin P) (Fin J) ℝ) : Fin J → Fin Q → ℝ :=
  fun j => postMeanOf (mu1WithA I A) W j

/-- Posterior-variance output of `PosteriorMASH::compute_posterior` with
`a_mat` supplied. -/
def mashPostVarA {R J P Q : ℕ} (I : MashInput R J P) (A : Matrix (Fin Q) (Fin R) ℝ)
    (W : Matrix (Fin P) (Fin J) ℝ) : Fin J → Fin Q → ℝ :=
  fun j => postVarOf (mu1WithA I A) (U1WithA I A) W j

/-- Negative-probability output of `PosteriorMASH::compute_posterior` with
`a_mat` supplied. -/
def mashNegProbA {R J P Q : ℕ} (I : MashInput R J P) (A : Matrix (Fin Q) (Fin R) ℝ)
    (W : Matrix (Fin P) (Fin J) ℝ) : Fin J → Fin Q → ℝ :=
  fun j => negProbOf (mu1WithA I A) (U1WithA I A) W j

/-- Zero-probability output of `PosteriorMASH::compute_posterior` with
`a_mat` supplied. -/
def mashZeroProbA {R J P Q : ℕ} (I : MashInput R J P) (A : Matrix (Fin Q) (Fin R) ℝ)
    (W : Matrix (Fin P) (Fin J) ℝ) : Fin J → Fin Q → ℝ :=
  fun j => zeroProbOf (mu1WithA I A) (U1WithA I A) W j

/-- Posterior-covariance output of `PosteriorMASH::compute_posterior` with
`a_mat` supplied, gated by `report_type`. -/
def mashPostCovA {R J P Q : ℕ} (I : MashInput R J P) (A : Matrix (Fin Q) (Fin R) ℝ)
    (W : Matrix (Fin P) (Fin J) ℝ) (report_type : ℤ) : Fin J → Matrix (Fin Q) (Fin Q) ℝ :=
  postCovOf (mu1WithA I A) (U1WithA I A) W report_type

/-! Shared-covariance (`compute_posterior_comcov`) variant: `Vinv` is built
from column 0 of the original SE, `U0`/`U1` are shared across effects (`U1`
is scaled by column 0 of `s_alpha`), while `mu1` still rescales by the full
`s_alpha`.  The per-`p` accumulations `post_* += (...) % weights.row(p)`
sum to the same weighted averages as the general path, so the outputs are
expressed with the same aggregation functions, with `U1` constant in `j`. -/

/-- Model of `Vinv` in `compute_posterior_comcov`. -/
def VinvCom {R J P : ℕ} [NeZero J] (I : MashInput R J P) : Matrix (Fin R) (Fin R) ℝ :=
  match I.VinvOpt with
  | some c => c 0
  | none => (getCov (fun r => I.sOrig r 0) I.v I.lOpt)⁻¹

/-- Model of `U0` in the component loop of `compute_posterior_comcov`
(the injected `U0` cache has one slice per component here). -/
def U0Com {R J P : ℕ} [NeZero J] (I : MashInput R J P) (p : Fin P) :
    Matrix (Fin R) (Fin R) ℝ :=
  match I.U0Opt with
  | some c => c 0 p
  | none => get_posterior_cov (VinvCom I) (I.U p)

/-- Model of `mu1_mat = get_posterior_mean_mat(b, Vinv, U0) % s_alpha`
in `compute_posterior_comcov` (`a_mat` empty), read off at column `j`. -/
def mu1Com {R J P : ℕ} [NeZero J] (I : MashInput R J P) (j : Fin J) (p : Fin P) :
    Fin R → ℝ :=
  fun r => (U0Com I p * VinvCom I).mulVec (fun r2 => I.b r2 j) r * I.sAlpha r j

/-- Model of `U1 = (U0.each_col % s_alpha.col(0)).each_row % s_alpha.col(0).t()`
in `compute_posterior_comcov` (`a_mat` empty).  Constant in `j`. -/
def U1Com {R J P : ℕ} [NeZero J] (I : MashInput R J P) (p : Fin P) :
    Matrix (Fin R) (Fin R) ℝ :=
  Matrix.of fun r r2 => U0Com I p r r2 * I.sAlpha r 0 * I.sAlpha r2 0

/-- Posterior-mean output of `PosteriorMASH::compute_posterior_comcov`
(`a_mat` empty). -/
def mashPostMeanCom {R J P : ℕ} [NeZero J] (I : MashInput R J P)
    (W : Matrix (Fin P) (Fin J) ℝ) : Fin J → Fin R → ℝ :=
  fun j => postMeanOf (mu1Com I) W j

/-- Posterior-variance output of `compute_posterior_comcov` (`a_mat` empty). -/
def mashPostVarCom {R J P : ℕ} [NeZero J] (I : MashInput R J P)
    (W : Matrix (Fin P) (Fin J) ℝ) : Fin J → Fin R → ℝ :=
  fun j => postVarOf (mu1Com I) (fun _ p => U1Com I p) W j

/-- Negative-probability output of `compute_posterior_comcov` (`a_mat` empty). -/
def mashNegProbCom {R J P : ℕ} [NeZero J] (I : MashInput R J P)
    (W : Matrix (Fin P) (Fin J) ℝ) : Fin J → Fin R → ℝ :=
  fun j => negProbOf (mu1Com I) (fun _ p => U1Com I p) W j

/-- Zero-probability output of `compute_posterior_comcov` (`a_mat` empty). -/
def mashZeroProbCom {R J P : ℕ} [NeZero J] (I : MashInput R J P)
    (W : Matrix (Fin P) (Fin J) ℝ) : Fin J → Fin R → ℝ :=
  fun j => zeroProbOf (mu1Com I) (fun _ p => U1Com I p) W j

/-- Posterior-covariance output of `compute_posterior_comcov` (`a_mat` empty),
gated by `report_type` exactly as in the general path. -/
def mashPostCovCom {R J P : ℕ} [NeZero J] (I : MashInput R J P)
    (W : Matrix (Fin P) (Fin J) ℝ) (report_type : ℤ) : Fin J → Matrix (Fin R) (Fin R) ℝ :=
  postCovOf (mu1Com I) (fun _ p => U1Com I p) W report_type

/-! `MVSERMix` (single-effect-regression variant).  The moment computation is
identical to `PosteriorMASH` with `l_mat` and `a_mat` absent (its `Vinv` uses
the two-argument `get_cov(s, v)`, which equals `getCov` with empty `L`), so
the per-component quantities are reused through `toMashInput`.  On top of
that it always accumulates the full posterior covariance and, when an inverse
prior cube was injected (`set_Uinv`), performs the EM update of the prior
scalar. -/

/-- Inputs of an `MVSERMix` instance (SE object resolved as in `MashInput`). -/
structure MvsInput (R J P : ℕ) where
  b : Matrix (Fin R) (Fin J) ℝ
  sAlpha : Matrix (Fin R) (Fin J) ℝ
  sOrig : Matrix (Fin R) (Fin J) ℝ
  v : Matrix (Fin R) (Fin R) ℝ
  U : Fin P → Matrix (Fin R) (Fin R) ℝ
  VinvOpt : Option (Fin J → Matrix (Fin R) (Fin R) ℝ)
  U0Opt : Option (Fin J → Fin P → Matrix (Fin R) (Fin R) ℝ)
  UinvOpt : Option (Fin P → Matrix (Fin R) (Fin R) ℝ)

/-- An `MVSERMix` instance seen as a `PosteriorMASH` instance with empty
`l_mat` (MVSERMix calls the two-argument `get_cov`). -/
def MvsInput.toMashInput {R J P : ℕ} (I : MvsInput R J P) : MashInput R J P :=
  ⟨I.b, I.sAlpha, I.sOrig, I.v, none, I.U, I.VinvOpt, I.U0Opt⟩

/-- Posterior-mean output of `MVSERMix::compute_posterior`. -/
def mvsPostMean {R J P : ℕ} (I : MvsInput R J P) (W : Matrix (Fin P) (Fin J) ℝ) :
    Fin J → Fin R → ℝ :=
  fun j => postMeanOf (mu1Base I.toMashInput) W j

/-- Posterior-variance output of `MVSERMix::compute_posterior`. -/
def mvsPostVar {R J P : ℕ} (I : MvsInput R J P) (W : Matrix (Fin P) (Fin J) ℝ) :
    Fin J → Fin R → ℝ :=
  fun j => postVarOf (mu1Base I.toMashInput) (U1Base I.toMashInput) W j

/-- Negative-probability output of `MVSERMix::compute_posterior`. -/
def mvsNegProb {R J P : ℕ} (I : MvsInput R J P) (W : Matrix (Fin P) (Fin J) ℝ) :
    Fin J → Fin R → ℝ :=
  fun j => negProbOf (mu1Base I.toMashInput) (U1Base I.toMashInput) W j

/-- Zero-probability output of `MVSERMix::compute_posterior`. -/
def mvsZeroProb {R J P : ℕ} (I : MvsInput R J P) (W : Matrix (Fin P) (Fin J) ℝ) :
    Fin J → Fin R → ℝ :=
  fun j => zeroProbOf (mu1Base I.toMashInput) (U1Base I.toMashInput) W j

/-- Posterior-covariance output of `MVSERMix::compute_posterior`: the
accumulation `post_cov.slice(j) += w[p,j] * mu2_mat` is unconditional and the
outer product of the marginal mean is always subtracted. -/
def mvsPostCov {R J P : ℕ} (I : MvsInput R J P) (W : Matrix (Fin P) (Fin J) ℝ)
    (j : Fin J) : Matrix (Fin R) (Fin R) ℝ :=
  (∑ p, W p j • (U1Base I.toMashInput j p
      + Matrix.vecMulVec (mu1Base I.toMashInput j p) (mu1Base I.toMashInput j p)))
  - Matrix.vecMulVec (postMeanOf (mu1Base I.toMashInput) W j)
      (postMeanOf (mu1Base I.toMashInput) W j)

/-- Model of `mu2_cube.slice(p)` after the effect loop of
`MVSERMix::compute_posterior`: the sum over effects `j` of
`posterior_variable_weights[p,j] * (U1 + mu1 * mu1.t())`. -/
def mvsMu2Cube {R J P : ℕ} (I : MvsInput R J P) (pvw : Matrix (Fin P) (Fin J) ℝ)
    (p : Fin P) : Matrix (Fin R) (Fin R) ℝ :=
  ∑ j, pvw p j • (U1Base I.toMashInput j p
      + Matrix.vecMulVec (mu1Base I.toMashInput j p) (mu1Base I.toMashInput j p))

/-- Model of the `prior_scalar` buffer after `MVSERMix::compute_posterior`:
it is written only when an inverse-prior cube was injected (`none` models the
buffer being left unpopulated), in which case
`prior_scalar[p] = trace(Uinv[p] * mu2_cube[p]) / R`. -/
def mvsPriorScalar {R J P : ℕ} (I : MvsInput R J P) (pvw : Matrix (Fin P) (Fin J) ℝ) :
    Option (Fin P → ℝ) :=
  I.UinvOpt.map fun uinv => fun p =>
    Matrix.trace (uinv p * mvsMu2Cube I pvw p) / (R : ℝ)

/-- Model of `mu1_mat` in `MVSERMix::compute_posterior_comcov` at column `j`. -/
def mvsMu1Com {R J P : ℕ} [NeZero J] (I : MvsInput R J P) (j : Fin J) (p : Fin P) :
    Fin R → ℝ :=
  mu1Com I.toMashInput j p

/-- Model of `U1` in `MVSERMix::compute_posterior_comcov`. -/
def mvsU1Com {R J P : ℕ} [NeZero J] (I : MvsInput R J P) (p : Fin P) :
    Matrix (Fin R) (Fin R) ℝ :=
  U1Com I.toMashInput p

/-- Model of `mu2_cube.slice(p)` after the loops of
`MVSERMix::compute_posterior_comcov`. -/
def mvsMu2CubeCom {R J P : ℕ} [NeZero J] (I : MvsInput R J P)
    (pvw : Matrix (Fin P) (Fin J) ℝ) (p : Fin P) : Matrix (Fin R) (Fin R) ℝ :=
  ∑ j, pvw p j • (mvsU1Com I p + Matrix.vecMulVec (mvsMu1Com I j p) (mvsMu1Com I j p))

/-- Model of the `prior_scalar` buffer after
`MVSERMix::compute_posterior_comcov`. -/
def mvsPriorScalarCom {R J P : ℕ} [NeZero J] (I : MvsInput R J P)
    (pvw : Matrix (Fin P) (Fin J) ℝ) : Option (Fin P → ℝ) :=
  I.UinvOpt.map fun uinv => fun p =>
    Matrix.trace (uinv p * mvsMu2CubeCom I pvw p) / (R : ℝ)

/-! `PosteriorASH` (univariate engine).  Everything is scalar per effect and
component: `vinv = 1 / (s² * v)`, `U1 = U_p / (vinv * U_p + 1)`,
`mu1 = U1 * vinv * b * s_alpha`, then `U1` is rescaled by `s_alpha²`. -/

/-- Inputs of a `PosteriorASH` instance (`s_alpha` resolved to ones when the
constructor argument is empty). -/
structure AshInput (J P : ℕ) where
  b : Fin J → ℝ
  s : Fin J → ℝ
  sAlpha : Fin J → ℝ
  v : ℝ
  U : Fin P → ℝ

/-- Model of `vinv = 1 / (s_vec % s_vec * v)`. -/
def ashVinv {J P : ℕ} (I : AshInput J P) (j : Fin J) : ℝ :=
  1 / (I.s j * I.s j * I.v)

/-- Model of `U1 = U_vec.at(p) / (vinv * U_vec.at(p) + 1.0)` (the posterior
variance before rescaling). -/
def ashU1raw {J P : ℕ} (I : AshInput J P) (j : Fin J) (p : Fin P) : ℝ :=
  I.U p / (ashVinv I j * I.U p + 1)

/-- Model of `mu1_mat.col(p) = U1 % vinv % b_vec % s_alpha_vec`. -/
def ashMu1 {J P : ℕ} (I : AshInput J P) (j : Fin J) (p : Fin P) : ℝ :=
  ashU1raw I j p * ashVinv I j * I.b j * I.sAlpha j

/-- Model of the rescaling `U1 = U1 % (s_alpha_vec % s_alpha_vec)`. -/
def ashU1 {J P : ℕ} (I : AshInput J P) (j : Fin J) (p : Fin P) : ℝ :=
  ashU1raw I j p * (I.sAlpha j * I.sAlpha j)

/-- Model of `mu2_mat.col(p) = pow(mu1, 2) + U1`. -/
def ashMu2 {J P : ℕ} (I : AshInput J P) (j : Fin J) (p : Fin P) : ℝ :=
  (ashMu1 I j p) ^ 2 + ashU1 I j p

/-- Model of `neg_mat`: `pnorm(mu1, 0, sqrt(U1))`, overwritten with `0`
where `U1 == 0`. -/
def ashNegMat {J P : ℕ} (I : AshInput J P) (j : Fin J) (p : Fin P) : ℝ :=
  if ashU1 I j p = 0 then 0
  else pnorm (ashMu1 I j p) 0 (Real.sqrt (ashU1 I j p)) false true

/-- Model of `zero_mat`: `0`, overwritten with `1` where `U1 == 0`. -/
def ashZeroMat {J P : ℕ} (I : AshInput J P) (j : Fin J) (p : Fin P) : ℝ :=
  if ashU1 I j p = 0 then 1 else 0

/-- Posterior-mean output of `PosteriorASH::compute_posterior`:
`post_mean[j] = dot(mu1_mat.row(j), weights.col(j))`. -/
def ashPostMean {J P : ℕ} (I : AshInput J P) (W : Matrix (Fin P) (Fin J) ℝ)
    (j : Fin J) : ℝ :=
  ∑ p, ashMu1 I j p * W p j

/-- Posterior-variance output of `PosteriorASH::compute_posterior`,
after the final `post_var -= pow(post_mean, 2)`. -/
def ashPostVar {J P : ℕ} (I : AshInput J P) (W : Matrix (Fin P) (Fin J) ℝ)
    (j : Fin J) : ℝ :=
  (∑ p, ashMu2 I j p * W p j) - (ashPostMean I W j) ^ 2

/-- Negative-probability output of `PosteriorASH::compute_posterior`. -/
def ashNegProb {J P : ℕ} (I : AshInput J P) (W : Matrix (Fin P) (Fin J) ℝ)
    (j : Fin J) : ℝ :=
  ∑ p, ashNegMat I j p * W p j

/-- Zero-probability output of `PosteriorASH::compute_posterior`. -/
def ashZeroProb {J P : ℕ} (I : AshInput J P) (W : Matrix (Fin P) (Fin J) ℝ)
    (j : Fin J) : ℝ :=
  ∑ p, ashZeroMat I j p * W p j

/-! Shape model for the `PosteriorMASH` constructor and accessors.  The
constructor sizes every output buffer with `R` rows — replaced by
`a_mat.n_rows` when `a_mat` is non-empty — and `J` columns; the matrix
accessors return the transpose (`.t()`) of the buffers, while
`PosteriorCov()` returns the `R×R×J` cube unchanged. -/

/-- Row dimension of the output buffers chosen by the `PosteriorMASH`
constructor: `b_mat.n_rows`, replaced by `a_mat.n_rows` when `a_mat` is
non-empty. -/
def mashOutRows (bRows : ℕ) (aRows : Option ℕ) : ℕ :=
  match aRows with
  | none => bRows
  | some q => q

/-- Shape `(n_rows, n_cols)` of the matrix returned by
`PosteriorMASH::PosteriorMean()` (and `PosteriorSD`, `NegativeProb`,
`ZeroProb`, which transpose buffers of the same size): the buffer is
`mashOutRows R aRows × J` and the accessor returns its transpose. -/
def mashAccessorShape (bRows J : ℕ) (aRows : Option ℕ) : ℕ × ℕ :=
  (J, mashOutRows bRows aRows)

/-- Shape `(n_rows, n_cols, n_slices)` of the cube returned by
`PosteriorMASH::PosteriorCov()`: the buffer is returned untransposed. -/
def mashCovShape (bRows J : ℕ) (aRows : Option ℕ) : ℕ × ℕ × ℕ :=
  (mashOutRows bRows aRows, mashOutRows bRows aRows, J)

/-- Model of `mu1_mat` in `compute_posterior_comcov` when `a_mat` is
supplied: `a_mat * (get_posterior_mean_mat(b, Vinv, U0) % s_alpha)`. -/
def mu1ComA {R J P Q : ℕ} [NeZero J] (I : MashInput R J P)
    (A : Matrix (Fin Q) (Fin R) ℝ) (j : Fin J) (p : Fin P) : Fin Q → ℝ :=
  A.mulVec (mu1Com I j p)

/-- Model of `U1` in `compute_posterior_comcov` when `a_mat` is supplied. -/
def U1ComA {R J P Q : ℕ} [NeZero J] (I : MashInput R J P)
    (A : Matrix (Fin Q) (Fin R) ℝ) (p : Fin P) : Matrix (Fin Q) (Fin Q) ℝ :=
  A * (U1Com I p * A.transpose)

/-- Posterior-covariance output of `compute_posterior_comcov` with `a_mat`
supplied, gated by `report_type`. -/
def mashPostCovComA {R J P Q : ℕ} [NeZero J] (I : MashInput R J P)
    (A : Matrix (Fin Q) (Fin R) ℝ) (W : Matrix (Fin P) (Fin J) ℝ)
    (report_type : ℤ) : Fin J → Matrix (Fin Q) (Fin Q) ℝ :=
  postCovOf (mu1ComA I A) (fun _ p => U1ComA I A p) W report_type

/-! Concrete inputs used by individual witnesses and counterexamples. -/

/-- All-ones matrix. -/
def onesM (m n : ℕ) : Matrix (Fin m) (Fin n) ℝ :=
  Matrix.of fun _ _ => 1

/-- Concrete 1×1×1 `PosteriorMASH` input with injected `Vinv` and `U0`
caches (used to exercise the report-type gating). -/
def c2Input : MashInput 1 1 1 :=
  ⟨0, onesM 1 1, onesM 1 1, onesM 1 1, none, fun _ => onesM 1 1,
    some fun _ => onesM 1 1, some fun _ _ => onesM 1 1⟩

/-- Concrete 1×1×1 `PosteriorMASH` input with no caches and identity
covariances (a "valid input" in the sense of the specification). -/
def c3Input : MashInput 1 1 1 :=
  ⟨0, onesM 1 1, onesM 1 1, 1, none, fun _ => 1, none, none⟩

/-- Concrete 1×1×1 `PosteriorMASH` input with a degenerate (zero) injected
posterior covariance. -/
def c6Input : MashInput 1 1 1 :=
  ⟨0, onesM 1 1, onesM 1 1, 1, none, fun _ => 0, none, some fun _ _ => 0⟩

/-- Concrete univariate input with a degenerate (zero) prior variance. -/
def c6AshInput : AshInput 1 1 :=
  ⟨fun _ => 0, fun _ => 1, fun _ => 1, 1, fun _ => 0⟩

/-- Concrete 1×1×1 `MVSERMix` input with an injected inverse-prior cube. -/
def c9Input : MvsInput 1 1 1 :=
  ⟨0, onesM 1 1, onesM 1 1, 1, fun _ => 1, none, none, some fun _ => 1⟩

/-- Concrete 1×1×1 `MVSERMix` input without an inverse-prior cube. -/
def c9InputNone : MvsInput 1 1 1 :=
  ⟨0, onesM 1 1, onesM 1 1, 1, fun _ => 1, none, none, none⟩

end

/-! Helper lemmas. -/

/-- Incrementing the diagonal by one is addition of the identity matrix. -/
theorem addDiagOne_eq {n : ℕ} (M : Matrix (Fin n) (Fin n) ℝ) :
    addDiagOne M = M + 1 := by
  ext i j
  by_cases h : i = j <;>
    simp [addDiagOne, Matrix.add_apply, Matrix.one_apply, h]

/-- Inverse of a 1×1 real matrix, entrywise. -/
theorem matrix_inv_fin_one (A : Matrix (Fin 1) (Fin 1) ℝ) :
    A⁻¹ = Matrix.of fun _ _ => (A 0 0)⁻¹ := by
  rw [Matrix.inv_def, Matrix.adjugate_fin_one, Matrix.det_fin_one, Ring.inverse_eq_inv]
  ext i j
  fin_cases i; fin_cases j
  simp

/-- Each entry of the batched density is the scalar density of the
corresponding column. -/
theorem dmvnorm_mat_apply_eq {n m : ℕ} (x : Matrix (Fin n) (Fin m) ℝ)
    (mean : Fin n → ℝ) (sigma : Matrix (Fin n) (Fin n) ℝ) (logd inversed : Bool)
    (j : Fin m) :
    dmvnorm_mat x mean sigma logd inversed j = dmvnorm (fun r => x r j) mean sigma logd inversed := by
  unfold dmvnorm dmvnorm_mat
  cases h : (if inversed then some sigma else rooti_of sigma) with
  | none => simp only [h]
  | some rooti => simp only [h]

/-!
C5.  `get_posterior_cov(Vinv, U)` is the conjugate-normal posterior
covariance formula `U * (Vinv * U + I)⁻¹`, and for `R = 1` it reduces to the
scalar update `U / (vinv * U + 1)` of the univariate engine.
-/

/-- C5: the `S.diag() += 1` trick makes `get_posterior_cov Vinv U` equal to
`U * (Vinv * U + I)⁻¹` whenever `Vinv * U + I` is invertible (in fact the
two sides agree unconditionally in this model), and for 1×1 matrices the
entry equals the univariate engine's scalar formula `U / (vinv * U + 1)`. -/
theorem get_posterior_cov_conjugate {n : ℕ} (Vinv U : Matrix (Fin n) (Fin n) ℝ)
    (hinv : IsUnit (Vinv * U + 1).det) :
    get_posterior_cov Vinv U = U * (Vinv * U + 1)⁻¹ ∧
      ∀ V1 U1 : Matrix (Fin 1) (Fin 1) ℝ,
        get_posterior_cov V1 U1 0 0 = U1 0 0 / (V1 0 0 * U1 0 0 + 1) := by
  constructor
  · rw [get_posterior_cov, addDiagOne_eq]
  · intro V1 U1
    rw [get_posterior_cov, addDiagOne_eq, matrix_inv_fin_one]
    simp [Matrix.mul_apply, Matrix.add_apply, Matrix.one_apply, div_eq_mul_inv]

/-- Witness for C5 at `Vinv = U = 1` (where `det (Vinv * U + I) = 2` is a
unit). -/
theorem get_posterior_cov_conjugate_witness :
    get_posterior_cov (1 : Matrix (Fin 1) (Fin 1) ℝ) 1 =
      1 * ((1 : Matrix (Fin 1) (Fin 1) ℝ) * 1 + 1)⁻¹ := by
  have hdet : IsUnit (((1 : Matrix (Fin 1) (Fin 1) ℝ) * 1 + 1)).det := by
    rw [Matrix.det_fin_one]
    refine isUnit_iff_ne_zero.mpr ?_
    norm_num [Matrix.add_apply, Matrix.one_apply]
  exact (get_posterior_cov_conjugate 1 1 hdet).1

/-!
C7.  The shared-covariance fast path of `calc_lik` agrees with the general
per-effect path when all columns of the SE matrix are identical.
-/

/-- C7: when every column of `s_mat` equals column 0, the `common_cov = true`
and `common_cov = false` paths of `calc_lik` return the same J×P matrix. -/
theorem calc_lik_common_eq_general {R J P : ℕ} [NeZero J]
    (b_mat s_mat : Matrix (Fin R) (Fin J) ℝ) (v_mat : Matrix (Fin R) (Fin R) ℝ)
    (l_mat : Option (Matrix (Fin R) (Fin R) ℝ))
    (U_cube : Fin P → Matrix (Fin R) (Fin R) ℝ) (logd : Bool)
    (hs : ∀ j, (fun r => s_mat r j) = fun r => s_mat r 0) :
    calc_lik b_mat s_mat v_mat l_mat U_cube logd true =
      calc_lik b_mat s_mat v_mat l_mat U_cube logd false := by
  funext j p
  show dmvnorm_mat b_mat (fun _ => 0) (getCov (fun r => s_mat r 0) v_mat l_mat + U_cube p) logd false j =
    dmvnorm (fun r => b_mat r j) (fun _ => 0) (getCov (fun r => s_mat r j) v_mat l_mat + U_cube p) logd false
  rw [dmvnorm_mat_apply_eq, hs j]

/-- Witness for C7: a 1×2×1 instance with constant SE matrix. -/
theorem calc_lik_common_eq_general_witness :
    calc_lik (R := 1) (J := 2) (P := 1) (Matrix.of fun _ _ => 0) (onesM 1 2)
        1 none (fun _ => 1) true true =
      calc_lik (Matrix.of fun _ _ => 0) (onesM 1 2) 1 none (fun _ => 1) true false :=
  calc_lik_common_eq_general _ _ _ _ _ _ (fun _ => rfl)

/-!
C1.  Singular-covariance point-mass fallback of `dmvnorm` / `dmvnorm_mat`
with `inversed = false`.
-/

/-- C1: when the Cholesky factorization of `sigma` fails, both density
functions treat the distribution as a point mass at `mean`: any column whose
L1 distance to `mean` is below `1e-6` yields `+∞` (for both density and
log-density), every other column yields `0` as density and `-∞` as
log-density. -/
theorem dmvnorm_singular_pointmass {n : ℕ} (sigma : Matrix (Fin n) (Fin n) ℝ)
    (h : cholLower n sigma = none) :
    (∀ (m : ℕ) (x : Matrix (Fin n) (Fin m) ℝ) (mean : Fin n → ℝ) (logd : Bool) (i : Fin m),
      ((∑ r, |x r i - mean r|) < 1e-6 → dmvnorm_mat x mean sigma logd false i = ⊤) ∧
      (¬ (∑ r, |x r i - mean r|) < 1e-6 →
        dmvnorm_mat x mean sigma logd false i = if logd then (⊥ : EReal) else 0)) ∧
    (∀ (x mean : Fin n → ℝ) (logd : Bool),
      ((∑ r, |x r - mean r|) < 1e-6 → dmvnorm x mean sigma logd false = ⊤) ∧
      (¬ (∑ r, |x r - mean r|) < 1e-6 →
        dmvnorm x mean sigma logd false = if logd then (⊥ : EReal) else 0)) := by
  have hr : rooti_of sigma = none := by rw [rooti_of, h]; rfl
  constructor
  · intro m x mean logd i
    constructor <;> intro hd <;> cases logd <;> simp [dmvnorm_mat, hr, hd]
  · intro x mean logd
    constructor <;> intro hd <;> cases logd <;> simp [dmvnorm, hr, hd]

/-- Witness for C1 at the singular covariance `sigma = 0` (1×1): the column
`x = mean = 0` is within the `1e-6` threshold and gets `+∞`, the column
`x = 1` is outside it and gets `-∞` (log) / `0` (density). -/
theorem dmvnorm_singular_pointmass_witness :
    dmvnorm (fun _ => (0 : ℝ)) (fun _ => 0) (0 : Matrix (Fin 1) (Fin 1) ℝ) false false = ⊤ ∧
    dmvnorm (fun _ => (1 : ℝ)) (fun _ => 0) (0 : Matrix (Fin 1) (Fin 1) ℝ) true false = ⊥ ∧
    dmvnorm_mat (onesM 1 1) (fun _ => 0) (0 : Matrix (Fin 1) (Fin 1) ℝ) false false 0 = 0 := by
  have hchol : cholLower 1 (0 : Matrix (Fin 1) (Fin 1) ℝ) = none := by
    simp [cholLower]
  have H := dmvnorm_singular_pointmass _ hchol
  refine ⟨(H.2 _ _ false).1 (by norm_num), ?_, ?_⟩
  · have := (H.2 (fun _ => (1 : ℝ)) (fun _ => 0) true).2 (by norm_num)
    simpa using this
  · have := (H.1 1 (onesM 1 1) (fun _ => 0) false 0).2 (by norm_num [onesM])
    simpa using this

/-!
C10.  With `inversed = true` (precomputed whitening matrix) the point-mass
fallback is never applied: the result is always a finite real value, whereas
the raw-covariance path applied to a singular component produces the
point-mass values (`+∞`/`-∞`/`0`); in particular the two paths disagree on a
singular component.
-/

/-- C10: with a precomputed whitening matrix (`inversed = true`), `dmvnorm`,
`dmvnorm_mat` and the rooti-cube overload of `calc_lik` always compute a
finite density directly from the supplied matrix (never `±∞`), while the
raw-covariance path on the singular `sigma = 0` with `x = mean` yields the
point-mass value `+∞` — so no choice of precomputed factor reproduces the
point-mass limit. -/
theorem dmvnorm_inversed_no_fallback :
    (∀ (n : ℕ) (x mean : Fin n → ℝ) (rooti : Matrix (Fin n) (Fin n) ℝ) (logd : Bool),
      dmvnorm x mean rooti logd true ≠ ⊤ ∧ dmvnorm x mean rooti logd true ≠ ⊥) ∧
    (∀ (n : ℕ) (x mean : Fin n → ℝ) (rooti : Matrix (Fin n) (Fin n) ℝ),
      dmvnorm x mean rooti false true ≠ 0) ∧
    (∀ (n m : ℕ) (x : Matrix (Fin n) (Fin m) ℝ) (mean : Fin n → ℝ)
      (rooti : Matrix (Fin n) (Fin n) ℝ) (logd : Bool) (i : Fin m),
      dmvnorm_mat x mean rooti logd true i ≠ ⊤ ∧ dmvnorm_mat x mean rooti logd true i ≠ ⊥) ∧
    (∀ (R J P : ℕ) (b_mat : Matrix (Fin R) (Fin J) ℝ)
      (rc : Fin P → Matrix (Fin R) (Fin R) ℝ)
      (rjp : Fin J → Fin P → Matrix (Fin R) (Fin R) ℝ) (logd common_cov : Bool)
      (j : Fin J) (p : Fin P),
      calc_lik_rooti b_mat rc rjp logd common_cov j p ≠ ⊤ ∧
      calc_lik_rooti b_mat rc rjp logd common_cov j p ≠ ⊥) ∧
    (∀ (rooti : Matrix (Fin 1) (Fin 1) ℝ) (logd : Bool),
      dmvnorm (fun _ => (0 : ℝ)) (fun _ => 0) (0 : Matrix (Fin 1) (Fin 1) ℝ) logd false = ⊤ ∧
      dmvnorm (fun _ => (0 : ℝ)) (fun _ => 0) rooti logd true ≠ ⊤) := by
  have hscalar : ∀ (n : ℕ) (x mean : Fin n → ℝ) (rooti : Matrix (Fin n) (Fin n) ℝ)
      (logd : Bool), dmvnorm x mean rooti logd true ≠ ⊤ ∧ dmvnorm x mean rooti logd true ≠ ⊥ := by
    intro n x mean rooti logd
    cases logd <;>
      exact ⟨by simp [dmvnorm], by simp [dmvnorm]⟩
  have hmat : ∀ (n m : ℕ) (x : Matrix (Fin n) (Fin m) ℝ) (mean : Fin n → ℝ)
      (rooti : Matrix (Fin n) (Fin n) ℝ) (logd : Bool) (i : Fin m),
      dmvnorm_mat x mean rooti logd true i ≠ ⊤ ∧ dmvnorm_mat x mean rooti logd true i ≠ ⊥ := by
    intro n m x mean rooti logd i
    rw [dmvnorm_mat_apply_eq]
    exact hscalar n _ mean rooti logd
  refine ⟨hscalar, ?_, hmat, ?_, ?_⟩
  · intro n x mean rooti
    have hpos := Real.exp_pos (whiten_logpdf rooti x mean)
    simp only [dmvnorm]
    intro h
    rw [show ((0 : EReal) = ((0 : ℝ) : EReal)) from rfl] at h
    exact hpos.ne' (EReal.coe_eq_coe_iff.mp h)
  · intro R J P b_mat rc rjp logd common_cov j p
    cases common_cov
    · simpa [calc_lik_rooti] using hscalar R _ _ (rjp j p) logd
    · simpa [calc_lik_rooti] using hmat R J b_mat _ (rc p) logd j
  · intro rooti logd
    have hchol : cholLower 1 (0 : Matrix (Fin 1) (Fin 1) ℝ) = none := by
      simp [cholLower]
    have hr : rooti_of (0 : Matrix (Fin 1) (Fin 1) ℝ) = none := by
      rw [rooti_of, hchol]; rfl
    refine ⟨?_, (hscalar 1 _ _ rooti logd).1⟩
    cases logd <;> simp [dmvnorm, hr] <;> norm_num

/-!
C2.  Report-type gating of the posterior-covariance output.
-/

/-- Gating of the covariance accumulation by `report_type`, generic in the
per-component posterior quantities: only `report_type = 2` and
`report_type = 4` populate the buffer; `report_type = 1` and `3` leave it at
its zero-initialized state. -/
theorem postCovOf_gating {O J P : ℕ} (mu1 : Fin J → Fin P → Fin O → ℝ)
    (U1 : Fin J → Fin P → Matrix (Fin O) (Fin O) ℝ) (W : Matrix (Fin P) (Fin J) ℝ) :
    postCovOf mu1 U1 W 1 = (fun _ => 0) ∧
    postCovOf mu1 U1 W 3 = (fun _ => 0) ∧
    postCovOf mu1 U1 W 2 =
      (fun j => ∑ p, W p j • (U1 j p + Matrix.vecMulVec (mu1 j p) (mu1 j p))) ∧
    postCovOf mu1 U1 W 4 =
      (fun j => (∑ p, W p j • (U1 j p + Matrix.vecMulVec (mu1 j p) (mu1 j p)))
        - Matrix.vecMulVec (postMeanOf mu1 W j) (postMeanOf mu1 W j)) := by
  refine ⟨funext fun j => ?_, funext fun j => ?_, funext fun j => ?_, funext fun j => ?_⟩ <;>
    norm_num [postCovOf]

/-- C2 (amended): for every input of `PosteriorMASH`, in both
`compute_posterior` and `compute_posterior_comcov` (with or without an
embedding `a_mat`), `report_type = 1` and `report_type = 3` leave the
posterior-covariance output at its zero-initialized state, while
`report_type = 2` populates it with the accumulated weighted per-component
second moments and `report_type = 4` additionally subtracts the outer
product of the marginal posterior mean. -/
theorem mash_postCov_report_gating {R J P Q : ℕ} [NeZero J] (I : MashInput R J P)
    (A : Matrix (Fin Q) (Fin R) ℝ) (W : Matrix (Fin P) (Fin J) ℝ) :
    (mashPostCov I W 1 = (fun _ => 0) ∧ mashPostCov I W 3 = (fun _ => 0) ∧
      mashPostCov I W 2 =
        (fun j => ∑ p, W p j • (U1Base I j p + Matrix.vecMulVec (mu1Base I j p) (mu1Base I j p))) ∧
      mashPostCov I W 4 =
        (fun j => (∑ p, W p j • (U1Base I j p + Matrix.vecMulVec (mu1Base I j p) (mu1Base I j p)))
          - Matrix.vecMulVec (mashPostMean I W j) (mashPostMean I W j))) ∧
    (mashPostCovA I A W 1 = (fun _ => 0) ∧ mashPostCovA I A W 3 = (fun _ => 0) ∧
      mashPostCovA I A W 2 =
        (fun j => ∑ p, W p j • (U1WithA I A j p + Matrix.vecMulVec (mu1WithA I A j p) (mu1WithA I A j p))) ∧
      mashPostCovA I A W 4 =
        (fun j => (∑ p, W p j • (U1WithA I A j p + Matrix.vecMulVec (mu1WithA I A j p) (mu1WithA I A j p)))
          - Matrix.vecMulVec (mashPostMeanA I A W j) (mashPostMeanA I A W j))) ∧
    (mashPostCovCom I W 1 = (fun _ => 0) ∧ mashPostCovCom I W 3 = (fun _ => 0) ∧
      mashPostCovCom I W 2 =
        (fun j => ∑ p, W p j • (U1Com I p + Matrix.vecMulVec (mu1Com I j p) (mu1Com I j p))) ∧
      mashPostCovCom I W 4 =
        (fun j => (∑ p, W p j • (U1Com I p + Matrix.vecMulVec (mu1Com I j p) (mu1Com I j p)))
          - Matrix.vecMulVec (mashPostMeanCom I W j) (mashPostMeanCom I W j))) ∧
    (mashPostCovComA I A W 1 = (fun _ => 0) ∧ mashPostCovComA I A W 3 = (fun _ => 0) ∧
      mashPostCovComA I A W 2 =
        (fun j => ∑ p, W p j • (U1ComA I A p + Matrix.vecMulVec (mu1ComA I A j p) (mu1ComA I A j p))) ∧
      mashPostCovComA I A W 4 =
        (fun j => (∑ p, W p j • (U1ComA I A p + Matrix.vecMulVec (mu1ComA I A j p) (mu1ComA I A j p)))
          - Matrix.vecMulVec (postMeanOf (mu1ComA I A) W j) (postMeanOf (mu1ComA I A) W j))) :=
  ⟨postCovOf_gating _ _ _, postCovOf_gating _ _ _, postCovOf_gating _ _ _, postCovOf_gating _ _ _⟩

/-- Witness for the report-type gating at a concrete 1×1×1 input. -/
theorem mash_postCov_report_gating_witness :
    mashPostCov c2Input (onesM 1 1) 1 = (fun _ => 0) :=
  (mash_postCov_report_gating c2Input (onesM 1 1) (onesM 1 1)).1.1

/-- C2 counterexample: at a concrete 1×1×1 input, `report_type = 3` leaves
the posterior covariance at zero, which differs from the accumulated
weighted second-moment value the claim asserts for every `report_type ≥ 2`. -/
theorem mash_report3_cov_not_populated :
    mashPostCov c2Input (onesM 1 1) 3 0 ≠
      ∑ p, onesM 1 1 p 0 • (U1Base c2Input 0 p +
        Matrix.vecMulVec (mu1Base c2Input 0 p) (mu1Base c2Input 0 p)) := by
  intro hEq
  have h00 := congrFun (congrFun hEq 0) 0
  have hL : mashPostCov c2Input (onesM 1 1) 3 0 0 0 = 0 := by
    norm_num [mashPostCov, postCovOf]
  have hmu : mu1Base c2Input 0 0 = fun _ => 0 := by
    funext r
    simp [mu1Base, get_posterior_mean, c2Input, Matrix.mulVec, Matrix.dotProduct]
  have hU1 : U1Base c2Input 0 0 0 0 = 1 := by
    simp [U1Base, U0At, c2Input, onesM]
  rw [hL] at h00
  rw [Fin.sum_univ_one] at h00
  simp [hmu, hU1, onesM, Matrix.vecMulVec, Matrix.add_apply, Matrix.smul_apply] at h00

/-!
C4.  Shapes of the `PosteriorMASH` accessors.
-/

/-- C4 counterexample: with `R = 2` conditions and `J = 3` effects (no
embedding), `PosteriorMean()` returns a 3×2 matrix, not the 2×3 matrix the
claim states. -/
theorem mash_accessor_shape_cex : mashAccessorShape 2 3 none ≠ (2, 3) := by
  decide

/-- C4 (amended): the matrix accessors (`PosteriorMean`, `PosteriorSD`,
`NegativeProb`, `ZeroProb`) return the transposed buffers, of shape `J×R`
(`J×Q` when an embedding `a_mat` with `Q` rows is supplied), while
`PosteriorCov` returns the untransposed `R×R×J` (resp. `Q×Q×J`) cube. -/
theorem mash_accessor_shapes (R J Q : ℕ) :
    mashAccessorShape R J none = (J, R) ∧ mashAccessorShape R J (some Q) = (J, Q) ∧
    mashCovShape R J none = (R, R, J) ∧ mashCovShape R J (some Q) = (Q, Q, J) :=
  ⟨rfl, rfl, rfl, rfl⟩

/-!
C6.  Degenerate components (`diag(U1) == 0` at some condition) are not
errors: the per-component zero-probability is set to `1` and the
negative-probability to `0` at that row/component, in every engine.
-/

/-- C6: in every posterior engine — the generic aggregation used by the
multivariate general path, the shared-covariance path, the
single-effect-regression variant, and the univariate engine — a vanishing
rescaled posterior variance `diag(U1) = 0` at a condition makes that
row/component's zero-probability `1` and negative-probability `0` (it is
handled in the normal flow, not an error). -/
theorem degenerate_component_not_error :
    (∀ (O J P : ℕ) (mu1 : Fin J → Fin P → Fin O → ℝ)
      (U1 : Fin J → Fin P → Matrix (Fin O) (Fin O) ℝ) (j : Fin J) (p : Fin P) (r : Fin O),
      U1 j p r r = 0 → zeroMatOf U1 j p r = 1 ∧ negMatOf mu1 U1 j p r = 0) ∧
    (∀ (R J P : ℕ) (I : MashInput R J P) (j : Fin J) (p : Fin P) (r : Fin R),
      U1Base I j p r r = 0 →
        zeroMatOf (U1Base I) j p r = 1 ∧ negMatOf (mu1Base I) (U1Base I) j p r = 0) ∧
    (∀ (R J P : ℕ) [NeZero J] (I : MashInput R J P) (j : Fin J) (p : Fin P) (r : Fin R),
      U1Com I p r r = 0 →
        zeroMatOf (fun _ p => U1Com I p) j p r = 1 ∧
        negMatOf (mu1Com I) (fun _ p => U1Com I p) j p r = 0) ∧
    (∀ (R J P : ℕ) (I : MvsInput R J P) (j : Fin J) (p : Fin P) (r : Fin R),
      U1Base I.toMashInput j p r r = 0 →
        zeroMatOf (U1Base I.toMashInput) j p r = 1 ∧
        negMatOf (mu1Base I.toMashInput) (U1Base I.toMashInput) j p r = 0) ∧
    (∀ (J P : ℕ) (I : AshInput J P) (j : Fin J) (p : Fin P),
      ashU1 I j p = 0 → ashZeroMat I j p = 1 ∧ ashNegMat I j p = 0) := by
  have base : ∀ (O J P : ℕ) (mu1 : Fin J → Fin P → Fin O → ℝ)
      (U1 : Fin J → Fin P → Matrix (Fin O) (Fin O) ℝ) (j : Fin J) (p : Fin P) (r : Fin O),
      U1 j p r r = 0 → zeroMatOf U1 j p r = 1 ∧ negMatOf mu1 U1 j p r = 0 := by
    intro O J P mu1 U1 j p r h
    constructor
    · simp [zeroMatOf, sigmaOf, h, Real.sqrt_zero]
    · simp [negMatOf, sigmaOf, h, Real.sqrt_zero]
  refine ⟨base, fun R J P I => base _ _ _ _ _, fun R J P _ I => base _ _ _ _ _,
    fun R J P I => base _ _ _ _ _, ?_⟩
  intro J P I j p h
  constructor
  · simp [ashZeroMat, h]
  · simp [ashNegMat, h]

/-- Witness for C6: a multivariate instance with an injected zero posterior
covariance and a univariate instance with zero prior variance both produce
zero-probability `1` and negative-probability `0`. -/
theorem degenerate_component_not_error_witness :
    zeroMatOf (U1Base c6Input) 0 0 0 = 1 ∧
    negMatOf (mu1Base c6Input) (U1Base c6Input) 0 0 0 = 0 ∧
    ashZeroMat c6AshInput 0 0 = 1 ∧ ashNegMat c6AshInput 0 0 = 0 := by
  have h1 : U1Base c6Input 0 0 0 0 = 0 := by
    simp [U1Base, U0At, c6Input]
  have h2 : ashU1 c6AshInput 0 0 = 0 := by
    simp [ashU1, ashU1raw, c6AshInput]
  obtain ⟨hz, hn⟩ := degenerate_component_not_error.2.1 1 1 1 c6Input 0 0 0 h1
  obtain ⟨hz2, hn2⟩ := degenerate_component_not_error.2.2.2.2 1 1 c6AshInput 0 0 h2
  exact ⟨hz, hn, hz2, hn2⟩

/-!
C8.  The univariate engine computes exactly the scalar conjugate update.
-/

/-- C8: for every effect `j` and component `p`, `PosteriorASH` computes the
closed-form conjugate update with scalar precision `vinv = 1/(s_j² * v)` —
per-component posterior variance `U_p / (vinv * U_p + 1)`, posterior mean
`U1 * vinv * b_j * alpha_j`, rescaled variance `U1 * alpha_j²` — and its
outputs are the corresponding weighted mixtures (no matrix algebra is
involved: every quantity is a scalar). -/
theorem ash_closed_form {J P : ℕ} (I : AshInput J P) (W : Matrix (Fin P) (Fin J) ℝ)
    (j : Fin J) :
    (∀ p, ashU1raw I j p = I.U p / (1 / (I.s j * I.s j * I.v) * I.U p + 1)) ∧
    (∀ p, ashMu1 I j p =
      I.U p / (1 / (I.s j * I.s j * I.v) * I.U p + 1) * (1 / (I.s j * I.s j * I.v))
        * I.b j * I.sAlpha j) ∧
    (∀ p, ashU1 I j p =
      I.U p / (1 / (I.s j * I.s j * I.v) * I.U p + 1) * (I.sAlpha j * I.sAlpha j)) ∧
    ashPostMean I W j = ∑ p,
      (I.U p / (1 / (I.s j * I.s j * I.v) * I.U p + 1) * (1 / (I.s j * I.s j * I.v))
        * I.b j * I.sAlpha j) * W p j ∧
    ashPostVar I W j = (∑ p,
      ((I.U p / (1 / (I.s j * I.s j * I.v) * I.U p + 1) * (1 / (I.s j * I.s j * I.v))
          * I.b j * I.sAlpha j) ^ 2
        + I.U p / (1 / (I.s j * I.s j * I.v) * I.U p + 1) * (I.sAlpha j * I.sAlpha j)) * W p j)
      - (ashPostMean I W j) ^ 2 :=
  ⟨fun _ => rfl, fun _ => rfl, fun _ => rfl, rfl, rfl⟩

/-!
C9.  EM prior-scalar update of `MVSERMix`.
-/

/-- C9: in both `MVSERMix::compute_posterior` and
`compute_posterior_comcov`, the prior-scalar vector is populated exactly
when an inverse-prior cube was injected, in which case
`priorScalar[p] = trace(Uinv_p * mu2Cube[p]) / R` with `mu2Cube[p]` the sum
over effects of `posterior_variable_weights[p,j] * (U1 + mu1 * mu1ᵀ)`; when
no inverse-prior cube is injected, the buffer is left unpopulated. -/
theorem mvser_prior_scalar {R J P : ℕ} [NeZero J] (I : MvsInput R J P)
    (pvw : Matrix (Fin P) (Fin J) ℝ) :
    (∀ u, I.UinvOpt = some u →
      mvsPriorScalar I pvw = some (fun p =>
        Matrix.trace (u p * (∑ j, pvw p j • (U1Base I.toMashInput j p
          + Matrix.vecMulVec (mu1Base I.toMashInput j p) (mu1Base I.toMashInput j p)))) / (R : ℝ)) ∧
      mvsPriorScalarCom I pvw = some (fun p =>
        Matrix.trace (u p * (∑ j, pvw p j • (mvsU1Com I p
          + Matrix.vecMulVec (mvsMu1Com I j p) (mvsMu1Com I j p)))) / (R : ℝ))) ∧
    (I.UinvOpt = none → mvsPriorScalar I pvw = none ∧ mvsPriorScalarCom I pvw = none) := by
  constructor
  · intro u hu
    constructor
    · rw [mvsPriorScalar, hu]
      rfl
    · rw [mvsPriorScalarCom, hu]
      rfl
  · intro hu
    rw [mvsPriorScalar, mvsPriorScalarCom, hu]
    exact ⟨rfl, rfl⟩

/-- Witness for C9: with an injected inverse-prior cube the prior-scalar
output is populated; without one it is left unpopulated. -/
theorem mvser_prior_scalar_witness :
    (mvsPriorScalar c9Input (onesM 1 1)).isSome = true ∧
    mvsPriorScalar c9InputNone (onesM 1 1) = none := by
  constructor
  · rw [((mvser_prior_scalar c9Input (onesM 1 1)).1 (fun _ => 1) rfl).1]
    rfl
  · exact ((mvser_prior_scalar c9InputNone (onesM 1 1)).2 rfl).1

/-!
C3.  Range of the posterior outputs: variance nonnegative, probabilities in
`[0, 1]`.  The proof goes through positive semidefiniteness of every
rescaled posterior covariance and through bounds on `erfc`.
-/

/-- Over `ℝ` the conjugate transpose is the transpose. -/
theorem real_conjTranspose {m n : ℕ} (A : Matrix (Fin m) (Fin n) ℝ) :
    A.conjTranspose = A.transpose := by
  ext i j
  simp [Matrix.conjTranspose_apply]

/-- Diagonal entries of a positive semidefinite real matrix are nonnegative. -/
theorem posSemidef_diag_nonneg {n : ℕ} {M : Matrix (Fin n) (Fin n) ℝ}
    (h : M.PosSemidef) (r : Fin n) : 0 ≤ M r r := by
  have h2 := h.2 (Pi.single r 1)
  simpa [Matrix.mulVec_single, Matrix.single_dotProduct] using h2

/-- The broadcast scaling `M[i,j] * s[i] * s[j]` of a positive semidefinite
matrix (i.e. `diag(s) * M * diag(s)`) is positive semidefinite. -/
theorem posSemidef_outer_scale {n : ℕ} {M : Matrix (Fin n) (Fin n) ℝ}
    (hM : M.PosSemidef) (s : Fin n → ℝ) :
    (Matrix.of fun i j => M i j * s i * s j).PosSemidef := by
  have hd : (Matrix.diagonal s).conjTranspose = Matrix.diagonal s := by
    rw [Matrix.diagonal_conjTranspose]
    congr 1
  have heq : (Matrix.of fun i j => M i j * s i * s j) =
      (Matrix.diagonal s).conjTranspose * M * Matrix.diagonal s := by
    rw [hd]
    ext i j
    rw [Matrix.mul_diagonal, Matrix.diagonal_mul]
    simp only [Matrix.of_apply]
    ring
  rw [heq]
  exact hM.conjTranspose_mul_mul_same (Matrix.diagonal s)

/-- `get_cov` of a positive semidefinite base covariance is positive
semidefinite, for any scaling vector and any optional transform `L`. -/
theorem posSemidef_getCov {n : ℕ} {V : Matrix (Fin n) (Fin n) ℝ}
    (hV : V.PosSemidef) (s : Fin n → ℝ) (L : Option (Matrix (Fin n) (Fin n) ℝ)) :
    (getCov s V L).PosSemidef := by
  have hbase := posSemidef_outer_scale hV s
  cases L with
  | none => exact hbase
  | some l =>
    have h := hbase.mul_mul_conjTranspose_same l
    rwa [real_conjTranspose] at h

/-- `get_posterior_cov Vinv U = U * (Vinv * U + I)⁻¹` is positive
semidefinite when `Vinv` and `U` are.  Proof: writing `S` for the psd square
root of `U` and `N = I + S * Vinv * S` (positive definite), one checks
`(S * N⁻¹ * S) * (Vinv * U + I) = U`, so when `Vinv * U + I` is invertible
the posterior covariance is the congruence `S * N⁻¹ * S`; otherwise the
model inverse is `0` and the product vanishes. -/
theorem posSemidef_get_posterior_cov {n : ℕ} {Vinv U : Matrix (Fin n) (Fin n) ℝ}
    (hVinv : Vinv.PosSemidef) (hU : U.PosSemidef) :
    (get_posterior_cov Vinv U).PosSemidef := by
  rw [get_posterior_cov, addDiagOne_eq]
  by_cases hdet : IsUnit (Vinv * U + 1).det
  case neg =>
    rw [Matrix.nonsing_inv_apply_not_isUnit _ hdet, Matrix.mul_zero]
    exact Matrix.PosSemidef.zero
  case pos =>
    obtain ⟨S, hSS, hSpsd⟩ :
        ∃ S : Matrix (Fin n) (Fin n) ℝ, S * S = U ∧ S.PosSemidef :=
      ⟨hU.sqrt, hU.sqrt_mul_self, hU.posSemidef_sqrt⟩
    have hSh : S.conjTranspose = S := hSpsd.1
    have hSVS : (S * Vinv * S).PosSemidef := by
      have h := hVinv.conjTranspose_mul_mul_same S
      rwa [hSh] at h
    have hNpd : (1 + S * Vinv * S).PosDef :=
      (Matrix.PosDef.one).add_posSemidef hSVS
    have hNdet : IsUnit (1 + S * Vinv * S).det := hNpd.det_pos.ne'.isUnit
    have hNinv : ((1 + S * Vinv * S)⁻¹).PosSemidef := hNpd.inv.posSemidef
    have hkey : (S * ((1 + S * Vinv * S)⁻¹ * S)) * (Vinv * U + 1) = U := by
      have h1 : (S * ((1 + S * Vinv * S)⁻¹ * S)) * (Vinv * U + 1)
          = S * ((1 + S * Vinv * S)⁻¹ * ((1 + S * Vinv * S) * S)) := by
        rw [← hSS]
        simp only [Matrix.mul_add, Matrix.add_mul, Matrix.mul_one, Matrix.one_mul,
          Matrix.mul_assoc]
        abel
      rw [h1, ← Matrix.mul_assoc ((1 + S * Vinv * S)⁻¹) _ S,
        Matrix.nonsing_inv_mul _ hNdet, Matrix.one_mul, hSS]
    have hU0eq : U * (Vinv * U + 1)⁻¹ = S * ((1 + S * Vinv * S)⁻¹ * S) := by
      have h2 := congrArg (fun X => X * (Vinv * U + 1)⁻¹) hkey
      simp only at h2
      rw [Matrix.mul_assoc, Matrix.mul_nonsing_inv _ hdet, Matrix.mul_one] at h2
      exact h2.symm
    rw [hU0eq]
    have h3 := hNinv.conjTranspose_mul_mul_same S
    rw [hSh, Matrix.mul_assoc] at h3
    exact h3

/-- The complementary error function is nonnegative. -/
theorem erfc_nonneg (x : ℝ) : 0 ≤ erfc x := by
  rw [erfc]
  apply mul_nonneg
  · positivity
  · exact MeasureTheory.setIntegral_nonneg measurableSet_Ioi fun t _ => (Real.exp_pos _).le

/-- The complementary error function is at most `2`. -/
theorem erfc_le_two (x : ℝ) : erfc x ≤ 2 := by
  rw [erfc]
  have hint : MeasureTheory.Integrable (fun t : ℝ => Real.exp (-t ^ 2)) := by
    have h := integrable_exp_neg_mul_sq (one_pos (α := ℝ))
    simpa using h
  have hle : (∫ t in Set.Ioi x, Real.exp (-t ^ 2)) ≤ ∫ t : ℝ, Real.exp (-t ^ 2) :=
    MeasureTheory.setIntegral_le_integral hint
      (Filter.Eventually.of_forall fun t => (Real.exp_pos _).le)
  have htot : (∫ t : ℝ, Real.exp (-t ^ 2)) = Real.sqrt Real.pi := by
    have h := integral_gaussian 1
    simpa using h
  have hsqrt : 0 < Real.sqrt Real.pi := Real.sqrt_pos.mpr Real.pi_pos
  calc (2 / Real.sqrt Real.pi) * ∫ t in Set.Ioi x, Real.exp (-t ^ 2)
      ≤ (2 / Real.sqrt Real.pi) * Real.sqrt Real.pi := by
        refine mul_le_mul_of_nonneg_left ?_ (by positivity)
        rw [← htot]; exact hle
    _ = 2 := div_mul_cancel₀ 2 hsqrt.ne'

/-- Default-flag `pnorm` is `0.5 * erfc(...)`. -/
theorem pnorm_default_eq (x m s : ℝ) :
    pnorm x m s false true = 0.5 * erfc ((x - m) / s * (Real.sqrt 2)⁻¹) := rfl

/-- Default-flag `pnorm` takes values in `[0, 1]`. -/
theorem pnorm_default_mem (x m s : ℝ) :
    0 ≤ pnorm x m s false true ∧ pnorm x m s false true ≤ 1 := by
  rw [pnorm_default_eq]
  have h0 := erfc_nonneg ((x - m) / s * (Real.sqrt 2)⁻¹)
  have h2 := erfc_le_two ((x - m) / s * (Real.sqrt 2)⁻¹)
  constructor <;> nlinarith

/-- Jensen-type inequality: for nonnegative weights summing to `1`, the
square of the weighted mean is at most the weighted mean of squares. -/
theorem weighted_sq_le {P : ℕ} (w x : Fin P → ℝ) (hw : ∀ p, 0 ≤ w p)
    (h1 : ∑ p, w p = 1) : (∑ p, x p * w p) ^ 2 ≤ ∑ p, x p ^ 2 * w p := by
  have key : ∑ p, (x p - ∑ q, x q * w q) ^ 2 * w p
      = (∑ p, x p ^ 2 * w p) - (∑ p, x p * w p) ^ 2 := by
    calc ∑ p, (x p - ∑ q, x q * w q) ^ 2 * w p
        = ∑ p, (x p ^ 2 * w p - 2 * (∑ q, x q * w q) * (x p * w p)
            + (∑ q, x q * w q) ^ 2 * w p) :=
          Finset.sum_congr rfl fun p _ => by ring
      _ = (∑ p, x p ^ 2 * w p) - 2 * (∑ q, x q * w q) * (∑ p, x p * w p)
            + (∑ q, x q * w q) ^ 2 * ∑ p, w p := by
          rw [Finset.sum_add_distrib, Finset.sum_sub_distrib, ← Finset.mul_sum,
            ← Finset.mul_sum]
      _ = (∑ p, x p ^ 2 * w p) - (∑ p, x p * w p) ^ 2 := by
          rw [h1]; ring
  have h0 : 0 ≤ ∑ p, (x p - ∑ q, x q * w q) ^ 2 * w p :=
    Finset.sum_nonneg fun p _ => mul_nonneg (sq_nonneg _) (hw p)
  rw [key] at h0
  linarith

/-- Bounds of the aggregated outputs, generic in the per-component posterior
quantities: positive semidefinite per-component covariances and nonnegative
weights with unit column sums give nonnegative posterior variance and
negative/zero probabilities in `[0, 1]`. -/
theorem aggregate_bounds {O J P : ℕ} (mu1 : Fin J → Fin P → Fin O → ℝ)
    (U1 : Fin J → Fin P → Matrix (Fin O) (Fin O) ℝ) (W : Matrix (Fin P) (Fin J) ℝ)
    (hU1 : ∀ j p, (U1 j p).PosSemidef) (hW0 : ∀ p j, 0 ≤ W p j)
    (hW1 : ∀ j, ∑ p, W p j = 1) (j : Fin J) (r : Fin O) :
    0 ≤ postVarOf mu1 U1 W j r ∧ negProbOf mu1 U1 W j r ∈ Set.Icc (0 : ℝ) 1 ∧
      zeroProbOf mu1 U1 W j r ∈ Set.Icc (0 : ℝ) 1 := by
  have hdiag : ∀ p, 0 ≤ U1 j p r r := fun p => posSemidef_diag_nonneg (hU1 j p) r
  have hneg : ∀ p, 0 ≤ negMatOf mu1 U1 j p r ∧ negMatOf mu1 U1 j p r ≤ 1 := by
    intro p
    rw [negMatOf]
    by_cases h : sigmaOf U1 j p r = 0
    · simp [h]
    · simp only [h, if_false]
      exact pnorm_default_mem _ _ _
  have hzero : ∀ p, 0 ≤ zeroMatOf U1 j p r ∧ zeroMatOf U1 j p r ≤ 1 := by
    intro p
    rw [zeroMatOf]
    by_cases h : sigmaOf U1 j p r = 0 <;> simp [h]
  have havg : ∀ f : Fin P → ℝ, (∀ p, 0 ≤ f p ∧ f p ≤ 1) →
      (0 ≤ ∑ p, f p * W p j ∧ (∑ p, f p * W p j) ≤ 1) := by
    intro f hf
    constructor
    · exact Finset.sum_nonneg fun p _ => mul_nonneg (hf p).1 (hW0 p j)
    · calc ∑ p, f p * W p j ≤ ∑ p, W p j :=
          Finset.sum_le_sum fun p _ => by nlinarith [(hf p).1, (hf p).2, hW0 p j]
        _ = 1 := hW1 j
  refine ⟨?_, ?_, ?_⟩
  · rw [postVarOf, postMeanOf, sub_nonneg]
    calc (∑ p, mu1 j p r * W p j) ^ 2 ≤ ∑ p, (mu1 j p r) ^ 2 * W p j :=
        weighted_sq_le (fun p => W p j) (fun p => mu1 j p r) (fun p => hW0 p j) (hW1 j)
      _ ≤ ∑ p, ((mu1 j p r) ^ 2 + U1 j p r r) * W p j :=
        Finset.sum_le_sum fun p _ => by nlinarith [hdiag p, hW0 p j]
  · rw [negProbOf]
    exact Set.mem_Icc.mpr (havg _ hneg)
  · rw [zeroProbOf]
    exact Set.mem_Icc.mpr (havg _ hzero)

/-- C3: for every valid input (nonnegative posterior weights whose columns
sum to one, positive standard errors, positive semidefinite residual and
prior covariances; `Vinv`/`U0` computed on the fly), after
`PosteriorMASH::compute_posterior` every entry of the posterior-variance
output is nonnegative, and every entry of the negative-probability and
zero-probability outputs lies in `[0, 1]` — both without and with an
embedding matrix `a_mat`. -/
theorem mash_posterior_output_bounds {R J P : ℕ} (I : MashInput R J P)
    (W : Matrix (Fin P) (Fin J) ℝ)
    (hVinvNone : I.VinvOpt = none) (hU0None : I.U0Opt = none)
    (hW0 : ∀ p j, 0 ≤ W p j) (hW1 : ∀ j, ∑ p, W p j = 1)
    (hV : I.v.PosSemidef) (hU : ∀ p, (I.U p).PosSemidef)
    (hsOrig : ∀ r j, 0 < I.sOrig r j) (hsAlpha : ∀ r j, 0 < I.sAlpha r j) :
    (∀ j r, 0 ≤ mashPostVar I W j r ∧ mashNegProb I W j r ∈ Set.Icc (0 : ℝ) 1 ∧
      mashZeroProb I W j r ∈ Set.Icc (0 : ℝ) 1) ∧
    (∀ (Q : ℕ) (A : Matrix (Fin Q) (Fin R) ℝ) (j : Fin J) (q : Fin Q),
      0 ≤ mashPostVarA I A W j q ∧ mashNegProbA I A W j q ∈ Set.Icc (0 : ℝ) 1 ∧
      mashZeroProbA I A W j q ∈ Set.Icc (0 : ℝ) 1) := by
  have hVinvPSD : ∀ j, (VinvAt I j).PosSemidef := by
    intro j
    simp only [VinvAt, hVinvNone]
    exact (posSemidef_getCov hV _ _).inv
  have hU0PSD : ∀ j p, (U0At I j p).PosSemidef := by
    intro j p
    simp only [U0At, hU0None]
    exact posSemidef_get_posterior_cov (hVinvPSD j) (hU p)
  have hU1PSD : ∀ j p, (U1Base I j p).PosSemidef := by
    intro j p
    exact posSemidef_outer_scale (hU0PSD j p) fun r => I.sAlpha r j
  have hU1APSD : ∀ (Q : ℕ) (A : Matrix (Fin Q) (Fin R) ℝ) (j : Fin J) (p : Fin P),
      (U1WithA I A j p).PosSemidef := by
    intro Q A j p
    have h := (hU1PSD j p).mul_mul_conjTranspose_same A
    rw [real_conjTranspose, Matrix.mul_assoc] at h
    exact h
  exact ⟨fun j r => aggregate_bounds _ _ _ hU1PSD hW0 hW1 j r,
    fun Q A j q => aggregate_bounds _ _ _ (fun j p => hU1APSD Q A j p) hW0 hW1 j q⟩

/-- Witness for C3 at a concrete valid 1×1×1 input. -/
theorem mash_posterior_output_bounds_witness :
    0 ≤ mashPostVar c3Input (onesM 1 1) 0 0 ∧
    mashNegProb c3Input (onesM 1 1) 0 0 ∈ Set.Icc (0 : ℝ) 1 ∧
    mashZeroProb c3Input (onesM 1 1) 0 0 ∈ Set.Icc (0 : ℝ) 1 := by
  have h := mash_posterior_output_bounds c3Input (onesM 1 1) rfl rfl
    (fun p j => by norm_num [onesM]) (fun j => by simp [onesM])
    Matrix.PosSemidef.one (fun p => Matrix.PosSemidef.one)
    (fun r j => by norm_num [c3Input, onesM]) (fun r j => by norm_num [c3Input, onesM])
  exact h.1 0 0

end Mash
